import Mathlib

/-!
Verification of the `cli` module (src/cli.py): a settings tree (`Values`,
a subclass of `optparse.Values`) addressable by dotted paths, with three
ingestion passes (config file, environment, command line) orchestrated by
`App.opts`, and the `App` construction-time arity check on the entry
point (`App.find_main`).

Python 2 strings are modelled as `List Char`; `str.lower`, `str.split`,
`str.join` and `str.startswith` are modelled by explicit recursive
functions (`lowerStr`, `splitOn`, `joinOn`, `List.isPrefixOf`) with the
same semantics on ASCII data.  A Python attribute dictionary is modelled
as an ordered association list with overwrite-in-place update
(`updateAList`); the tree of `Values` instances is the nested inductive
`Values`.  Mutation is modelled by explicit state passing; an operation
that would raise `AttributeError` (writing through an attribute that
holds a scalar rather than a `Values` instance) returns `none`.
-/

namespace CliSpec

/-- Python 2 byte strings, modelled as lists of characters. -/
abbrev Str := List Char

/-- Coerce a Lean string literal to the `Str` model. -/
def str (s : String) : Str := s.data

/-- Model of `str.lower` on one ASCII character. -/
def lowerChar (c : Char) : Char :=
  match c with
  | 'A' => 'a' | 'B' => 'b' | 'C' => 'c' | 'D' => 'd' | 'E' => 'e'
  | 'F' => 'f' | 'G' => 'g' | 'H' => 'h' | 'I' => 'i' | 'J' => 'j'
  | 'K' => 'k' | 'L' => 'l' | 'M' => 'm' | 'N' => 'n' | 'O' => 'o'
  | 'P' => 'p' | 'Q' => 'q' | 'R' => 'r' | 'S' => 's' | 'T' => 't'
  | 'U' => 'u' | 'V' => 'v' | 'W' => 'w' | 'X' => 'x' | 'Y' => 'y'
  | 'Z' => 'z'
  | c => c

/-- Model of `str.lower`. -/
def lowerStr (s : Str) : Str := s.map lowerChar

/-- Model of Python `s.split(c)` for a one-character separator: splitting
the empty string yields `[[]]`, and every occurrence of `c` is a
boundary, so adjacent separators produce empty segments. -/
def splitOn (c : Char) : Str → List Str
  | [] => [[]]
  | x :: xs =>
    if x = c then [] :: splitOn c xs
    else
      match splitOn c xs with
      | [] => [[x]]
      | s :: rest => (x :: s) :: rest

/-- Model of Python `c.join(parts)` for a one-character joiner. -/
def joinOn (c : Char) : List Str → Str
  | [] => []
  | [s] => s
  | s :: rest => s ++ c :: joinOn c rest

/-- Ordered association list update with Python-dict semantics: overwrite
an existing binding in place, otherwise append the new binding. -/
def updateAList {β : Type} : List (Str × β) → Str → β → List (Str × β)
  | [], n, v => [(n, v)]
  | (k, w) :: rest, n, v =>
    if k = n then (n, v) :: rest else (k, w) :: updateAList rest n v

/-- First-binding lookup in an association list. -/
def lookupA {β : Type} : List (Str × β) → Str → Option β
  | [], _ => none
  | (k, v) :: rest, n => if k = n then some v else lookupA rest n

/-- Model of Python `dict(pairs)`: fold the pair list into an association
list, later pairs overwriting earlier ones with the same key. -/
def dictOf {β : Type} (l : List (Str × β)) : List (Str × β) :=
  l.foldl (fun acc kv => updateAList acc kv.1 kv.2) []

/-- The settings tree of src/cli.py's `Values` (a subclass of
`optparse.Values`): each node's attribute dictionary maps a segment name
either to a scalar value (`Sum.inl`) or to a child `Values` instance
(`Sum.inr`). -/
inductive Values (α : Type) : Type where
  | mk : List (Str × (α ⊕ Values α)) → Values α

/-- The attribute dictionary of a node. -/
def Values.entries {α : Type} : Values α → List (Str × (α ⊕ Values α))
  | .mk es => es

/-- The class attribute `Values.delim = '.'`. -/
def Values.delim : Char := '.'

/-- Overwrite one attribute of a node (`setattr` / `_update_loose`). -/
def Values.setAttr {α : Type} : Values α → Str → (α ⊕ Values α) → Values α
  | .mk es, n, e => .mk (updateAList es n e)

/-- Segment-list core of `Values.set` (src/cli.py lines 17-35): walk all
segments but the last, creating an empty child node where the attribute
is absent; fail (`none`, the `AttributeError` of the Python code) where
an intermediate attribute holds a scalar; overwrite the final segment's
attribute with the scalar value. -/
def Values.setSegs {α : Type} : Values α → List Str → α → Option (Values α)
  | _, [], _ => none
  | t, [n], v => some (t.setAttr n (Sum.inl v))
  | t, n :: m :: rest, v =>
    match lookupA t.entries n with
    | some (Sum.inl _) => none
    | some (Sum.inr sub) =>
      (Values.setSegs sub (m :: rest) v).map fun sub2 => t.setAttr n (Sum.inr sub2)
    | none =>
      (Values.setSegs (Values.mk []) (m :: rest) v).map fun sub2 =>
        t.setAttr n (Sum.inr sub2)

/-- Segment-list core of attribute-chain reading (`opts.a.b.c`): follow
each segment through the attribute dictionaries; a missing attribute, or
a scalar met before the last segment, is a lookup failure (`none`). -/
def Values.getSegs {α : Type} : Values α → List Str → Option (α ⊕ Values α)
  | t, [] => some (Sum.inr t)
  | t, n :: rest =>
    match lookupA t.entries n with
    | none => none
    | some (Sum.inl v) =>
      match rest with
      | [] => some (Sum.inl v)
      | _ :: _ => none
    | some (Sum.inr sub) => Values.getSegs sub rest

/-- `Values.set` (src/cli.py lines 17-35): split the dotted name on the
delimiter and write through the tree. -/
def Values.set {α : Type} (t : Values α) (name : Str) (v : α) : Option (Values α) :=
  t.setSegs (splitOn Values.delim name) v

/-- Dotted-path read of the tree (`getattr` chains in the callers). -/
def Values.get {α : Type} (t : Values α) (name : Str) : Option (α ⊕ Values α) :=
  t.getSegs (splitOn Values.delim name)

/-- Parsed form of one config-file section, as produced by Python 2's
`ConfigParser`: the raw `key = value` lines in file order are folded into
the section's option dictionary, each option name lower-cased by
`optionxform` and a repeated name overwriting the earlier value, so the
last occurrence wins.  (Files with a magic `DEFAULT` section are outside
this model.) -/
def parseSection (ls : List (Str × Str)) : List (Str × Str) :=
  ls.foldl (fun acc kv => updateAList acc (lowerStr kv.1) kv.2) []

/-- A config file as handed to `ConfigParser`: the sections in file
order, each with its raw `key = value` lines in file order. -/
def ConfigFile : Type := List (Str × List (Str × Str))

/-- Inner loop of `Values.update_from_config` (src/cli.py lines 58-63):
for each option of a section, join the section and option names with the
delimiter and `set` the resulting dotted path to the raw string value. -/
def applyOptions (t : Values Str) (s : Str) : List (Str × Str) → Option (Values Str)
  | [] => some t
  | (k, v) :: rest =>
    match Values.set t (s ++ Values.delim :: k) v with
    | none => none
    | some t' => applyOptions t' s rest

/-- `Values.update_from_config` (src/cli.py lines 37-63): flatten every
(section, option) pair of the parsed file into a dotted path on the
tree. -/
def Values.update_from_config (t : Values Str) : ConfigFile → Option (Values Str)
  | [] => some t
  | (s, ls) :: rest =>
    match applyOptions t s (parseSection ls) with
    | none => none
    | some t' => Values.update_from_config t' rest

/-- `Values.update_from_env` (src/cli.py lines 65-74): for each
environment pair, lower-case the key, split it on underscores, rejoin
with the delimiter and `set` that dotted path to the value. -/
def Values.update_from_env (t : Values Str) : List (Str × Str) → Option (Values Str)
  | [] => some t
  | (k, v) :: rest =>
    match Values.set t (joinOn Values.delim (splitOn '_' (lowerStr k))) v with
    | none => none
    | some t' => Values.update_from_env t' rest

/-- `Values.update_from_cli` (src/cli.py lines 76-82): build a parser
over the declared options and parse `argv`.  The external option parser
is a black box (a parameter `parseArgs` over an abstract option-schema
type `σ` and result type `π`); the method does not touch the tree it is
invoked on and simply returns the parser's result. -/
def Values.update_from_cli {α : Type} {σ π : Type} (parseArgs : σ → Option (List Str) → π)
    (_t : Values α) (options : σ) (argv : Option (List Str)) : π :=
  parseArgs options argv

/-- The env filter of `App.opts` (src/cli.py lines 152-157): keep the
pairs whose key, lower-cased, starts with the lower-cased application
name followed by an underscore, and replace each kept key by the join of
its underscore-separated components after the first. -/
def appFilterEnv (name : Str) (env : List (Str × Str)) : List (Str × Str) :=
  (env.filter fun kv =>
      List.isPrefixOf (lowerStr name ++ ['_']) (lowerStr kv.1)).map
    fun kv => (joinOn '_' ((splitOn '_' kv.1).drop 1), kv.2)

/-- Modelled from the spec wording of claim C3, for comparison with
`appFilterEnv`: retain exactly the keys whose case-insensitive prefix
equals the application name plus `'_'`, and strip that whole prefix
(including the separating underscore) from each retained key. -/
def specFilterEnv (name : Str) (env : List (Str × Str)) : List (Str × Str) :=
  (env.filter fun kv =>
      List.isPrefixOf (lowerStr name ++ ['_']) (lowerStr kv.1)).map
    fun kv => (kv.1.drop (name.length + 1), kv.2)

/-- The dotted path that `Values.update_from_env` derives from one
(already prefix-stripped) environment key (src/cli.py line 73). -/
def envKeyPath (k : Str) : Str := joinOn Values.delim (splitOn '_' (lowerStr k))

/-- Modelled from the spec wording of claim C3, for comparison with
`envKeyPath`: lower-case the key and replace each underscore with the
path delimiter. -/
def specKeyPath (k : Str) : Str :=
  (lowerStr k).map fun c => if c = '_' then Values.delim else c

/-- `App.opts` (src/cli.py lines 132-162): start from an empty tree;
apply the config file when present, then the prefix-filtered environment
when present; finally call `update_from_cli` — whose result the Python
code DISCARDS (the statement `opts.update_from_cli(self.options,
self.argv)` ignores the returned `(opts, args)` pair) — and return the
tree alone. -/
def App_opts {σ π : Type} (parseArgs : σ → Option (List Str) → π) (name : Str)
    (config_file : Option ConfigFile) (env : Option (List (Str × Str)))
    (options : σ) (argv : Option (List Str)) : Option (Values Str) :=
  let opts0 : Values Str := .mk []
  match (match config_file with
         | some cf => Values.update_from_config opts0 cf
         | none => some opts0) with
  | none => none
  | some opts1 =>
    match (match env with
           | some e => Values.update_from_env opts1 (dictOf (appFilterEnv name e))
           | none => some opts1) with
    | none => none
    | some opts2 =>
      let _ := Values.update_from_cli parseArgs opts2 options argv
      some opts2

/-- The signature data that `inspect.getargs(main.func_code)` yields for
a plain Python function: the number of declared positional parameters
and whether `*args` / `**kwargs` are declared. -/
structure PyFunc where
  args : Nat
  varargs : Bool
  varkw : Bool

/-- The two failure modes of `App.find_main`. -/
inductive MainErr : Type where
  | couldNotFind
  | badArity

/-- `App.find_main` (src/cli.py lines 168-187).  The argument is the
callable that the method settles on: the supplied `main` when callable,
otherwise the module-global `main` when callable, and `none` when
neither exists — in which case the first `MainError` is raised.  A found
callable must declare exactly three positional parameters and no
varargs/varkw, else the second `MainError` is raised. -/
def find_main (main : Option PyFunc) : Except MainErr PyFunc :=
  match main with
  | none => .error .couldNotFind
  | some f =>
    if f.args ≠ 3 ∨ f.varargs = true ∨ f.varkw = true then .error .badArity
    else .ok f

/-- The fields stored by `App.__init__` (src/cli.py lines 109-118). -/
structure App where
  name : Str
  main : PyFunc
  config_file : Option ConfigFile
  argv : Option (List Str)
  env : Option (List (Str × Str))
  exit_after_main : Bool

/-- `App.__init__` (src/cli.py lines 109-118): the constructor runs
`find_main` before anything else, so a bad entry-point signature aborts
construction and no `App` value exists. -/
def App_init (name : Str) (main : Option PyFunc) (config_file : Option ConfigFile)
    (argv : Option (List Str)) (env : Option (List (Str × Str)))
    (exit_after_main : Bool) : Except MainErr App :=
  (find_main main).map fun m =>
    { name := name, main := m, config_file := config_file, argv := argv,
      env := env, exit_after_main := exit_after_main }

/-- Declarative presence relation on the settings tree, independent of
`Values.getSegs`: `HasPath t ps e` holds when following the segments
`ps` through the attribute dictionaries (always taking the first binding
of a segment name) reaches the entry `e`. -/
inductive HasPath {α : Type} : Values α → List Str → (α ⊕ Values α) → Prop where
  | nil (t : Values α) : HasPath t [] (Sum.inr t)
  | leaf {es₁ es₂ : List (Str × (α ⊕ Values α))} {n : Str} {v : α}
      (h : ∀ p ∈ es₁, p.1 ≠ n) :
      HasPath (.mk (es₁ ++ (n, Sum.inl v) :: es₂)) [n] (Sum.inl v)
  | node {es₁ es₂ : List (Str × (α ⊕ Values α))} {n : Str} {sub : Values α}
      {rest : List Str} {e : α ⊕ Values α}
      (h : ∀ p ∈ es₁, p.1 ≠ n) (hsub : HasPath sub rest e) :
      HasPath (.mk (es₁ ++ (n, Sum.inr sub) :: es₂)) (n :: rest) e

/-! ## Association-list lemmas -/

theorem lookupA_update_self {β : Type} (es : List (Str × β)) (n : Str) (v : β) :
    lookupA (updateAList es n v) n = some v := by
  induction es with
  | nil => simp [updateAList, lookupA]
  | cons kv rest ih =>
    obtain ⟨k, w⟩ := kv
    by_cases h : k = n <;> simp [updateAList, lookupA, h, ih]

theorem lookupA_update_ne {β : Type} (es : List (Str × β)) {m n : Str} (v : β)
    (h : m ≠ n) : lookupA (updateAList es n v) m = lookupA es m := by
  induction es with
  | nil => simp [updateAList, lookupA, Ne.symm h]
  | cons kv rest ih =>
    obtain ⟨k, w⟩ := kv
    by_cases hk : k = n
    · subst hk
      simp [updateAList, lookupA, Ne.symm h]
    · by_cases hm : k = m <;> simp [updateAList, lookupA, hk, hm, ih, h]

/-! ## Definitional unfolding equations for `setSegs` and `getSegs` -/

theorem getSegs_cons_eq {α : Type} (t : Values α) (n : Str) (rest : List Str) :
    Values.getSegs t (n :: rest) =
      match lookupA t.entries n with
      | none => none
      | some (Sum.inl v) =>
        match rest with
        | [] => some (Sum.inl v)
        | _ :: _ => none
      | some (Sum.inr sub) => Values.getSegs sub rest := rfl

theorem setSegs_cons₂_eq {α : Type} (t : Values α) (n m : Str) (rest : List Str)
    (v : α) :
    Values.setSegs t (n :: m :: rest) v =
      match lookupA t.entries n with
      | some (Sum.inl _) => none
      | some (Sum.inr sub) =>
        (Values.setSegs sub (m :: rest) v).map fun sub2 =>
          t.setAttr n (Sum.inr sub2)
      | none =>
        (Values.setSegs (Values.mk []) (m :: rest) v).map fun sub2 =>
          t.setAttr n (Sum.inr sub2) := rfl

theorem entries_setAttr {α : Type} (t : Values α) (n : Str) (e : α ⊕ Values α) :
    (t.setAttr n e).entries = updateAList t.entries n e := by
  cases t; rfl

/-! ## Round-trip: a successful `set` is read back by `get` -/

theorem setSegs_getSegs {α : Type} :
    ∀ (ps : List Str) (t t' : Values α) (v : α),
      Values.setSegs t ps v = some t' →
      Values.getSegs t' ps = some (Sum.inl v)
  | [], _, _, _, h => by simp [Values.setSegs] at h
  | [n], t, t', v, h => by
    simp only [Values.setSegs, Option.some_inj] at h
    subst h
    rw [getSegs_cons_eq, entries_setAttr, lookupA_update_self]
  | n :: m :: rest, t, t', v, h => by
    rw [setSegs_cons₂_eq] at h
    cases hl : lookupA t.entries n with
    | none =>
      rw [hl] at h
      rw [Option.map_eq_some'] at h
      obtain ⟨sub2, hsub2, ht'⟩ := h
      subst ht'
      have ih := setSegs_getSegs (m :: rest) (Values.mk []) sub2 v hsub2
      rw [getSegs_cons_eq, entries_setAttr, lookupA_update_self]
      exact ih
    | some entry =>
      cases entry with
      | inl w => rw [hl] at h; simp at h
      | inr sub =>
        rw [hl] at h
        rw [Option.map_eq_some'] at h
        obtain ⟨sub2, hsub2, ht'⟩ := h
        subst ht'
        have ih := setSegs_getSegs (m :: rest) sub sub2 v hsub2
        rw [getSegs_cons_eq, entries_setAttr, lookupA_update_self]
        exact ih

theorem set_get_roundtrip {α : Type} (t t' : Values α) (name : Str) (v : α)
    (h : Values.set t name v = some t') :
    Values.get t' name = some (Sum.inl v) :=
  setSegs_getSegs (splitOn Values.delim name) t t' v h

/-! ## Frame: a write leaves segment-wise-unrelated paths untouched -/

theorem frame_aux {α : Type} :
    ∀ (ps qs : List Str) (t t' : Values α) (v : α),
      Values.setSegs t ps v = some t' →
      List.isPrefixOf ps qs = false →
      List.isPrefixOf qs ps = false →
      Values.getSegs t' qs = Values.getSegs t qs
  | [], _, _, _, _, h, _, _ => by simp [Values.setSegs] at h
  | [n], qs, t, t', v, h, h1, h2 => by
    simp only [Values.setSegs, Option.some_inj] at h
    subst h
    cases qs with
    | nil => simp [List.isPrefixOf] at h2
    | cons m qrest =>
      simp only [List.isPrefixOf, List.isPrefixOf_nil_left, Bool.and_true,
        beq_eq_false_iff_ne, ne_eq] at h1
      rw [getSegs_cons_eq, getSegs_cons_eq, entries_setAttr,
        lookupA_update_ne _ _ (fun hmn => h1 hmn.symm)]
  | n :: m :: rest, qs, t, t', v, h, h1, h2 => by
    rw [setSegs_cons₂_eq] at h
    cases qs with
    | nil => simp [List.isPrefixOf] at h2
    | cons k qrest =>
      by_cases hk : k = n
      · subst hk
        simp only [List.isPrefixOf, beq_self_eq_true, Bool.true_and] at h1 h2
        cases hl : lookupA t.entries k with
        | none =>
          rw [hl] at h
          rw [Option.map_eq_some'] at h
          obtain ⟨sub2, hsub2, ht'⟩ := h
          subst ht'
          have ih := frame_aux (m :: rest) qrest (Values.mk []) sub2 v hsub2 h1 h2
          rw [getSegs_cons_eq, getSegs_cons_eq, entries_setAttr,
            lookupA_update_self, hl]
          show Values.getSegs sub2 qrest = none
          rw [ih]
          cases qrest with
          | nil => simp [List.isPrefixOf] at h2
          | cons q1 qs' => rw [getSegs_cons_eq]; rfl
        | some entry =>
          cases entry with
          | inl w => rw [hl] at h; simp at h
          | inr sub =>
            rw [hl] at h
            rw [Option.map_eq_some'] at h
            obtain ⟨sub2, hsub2, ht'⟩ := h
            subst ht'
            have ih := frame_aux (m :: rest) qrest sub sub2 v hsub2 h1 h2
            rw [getSegs_cons_eq, getSegs_cons_eq, entries_setAttr,
              lookupA_update_self, hl]
            exact ih
      · cases hl : lookupA t.entries n with
        | none =>
          rw [hl] at h
          rw [Option.map_eq_some'] at h
          obtain ⟨sub2, hsub2, ht'⟩ := h
          subst ht'
          rw [getSegs_cons_eq, getSegs_cons_eq, entries_setAttr,
            lookupA_update_ne _ _ hk]
        | some entry =>
          cases entry with
          | inl w => rw [hl] at h; simp at h
          | inr sub =>
            rw [hl] at h
            rw [Option.map_eq_some'] at h
            obtain ⟨sub2, hsub2, ht'⟩ := h
            subst ht'
            rw [getSegs_cons_eq, getSegs_cons_eq, entries_setAttr,
              lookupA_update_ne _ _ hk]

/-! ## Adequacy of `getSegs` for the declarative relation `HasPath` -/

theorem lookupA_eq_some_iff {β : Type} :
    ∀ (es : List (Str × β)) (n : Str) (e : β),
      lookupA es n = some e ↔
        ∃ es₁ es₂, es = es₁ ++ (n, e) :: es₂ ∧ ∀ p ∈ es₁, p.1 ≠ n := by
  intro es
  induction es with
  | nil =>
    intro n e
    constructor
    · intro h; simp [lookupA] at h
    · rintro ⟨es₁, es₂, heq, -⟩
      exact absurd heq.symm (by simp)
  | cons kv rest ih =>
    obtain ⟨k, w⟩ := kv
    intro n e
    by_cases hk : k = n
    · subst hk
      constructor
      · intro h
        have hw : w = e := by simpa [lookupA] using h
        subst hw
        exact ⟨[], rest, rfl, by simp⟩
      · rintro ⟨es₁, es₂, heq, hfresh⟩
        cases es₁ with
        | nil =>
          rw [List.nil_append] at heq
          injection heq with h1 h2
          injection h1 with h1a h1b
          simp [lookupA, h1b]
        | cons p es₁' =>
          rw [List.cons_append] at heq
          injection heq with h1 h2
          exact absurd (congrArg Prod.fst h1.symm)
            (hfresh p (List.mem_cons_self p es₁'))
    · simp only [lookupA, if_neg hk]
      rw [ih n e]
      constructor
      · rintro ⟨es₁, es₂, heq, hfresh⟩
        refine ⟨(k, w) :: es₁, es₂, by rw [heq]; rfl, ?_⟩
        intro p hp
        rcases List.mem_cons.mp hp with hp | hp
        · rw [hp]; exact hk
        · exact hfresh p hp
      · rintro ⟨es₁, es₂, heq, hfresh⟩
        cases es₁ with
        | nil =>
          simp only [List.nil_append, List.cons.injEq] at heq
          exact absurd (congrArg Prod.fst heq.1) hk
        | cons p es₁' =>
          simp only [List.cons_append, List.cons.injEq] at heq
          refine ⟨es₁', es₂, heq.2, ?_⟩
          intro p' hp'
          exact hfresh p' (List.mem_cons_of_mem p hp')

theorem getSegs_of_hasPath {α : Type} {t : Values α} {ps : List Str}
    {e : α ⊕ Values α} (h : HasPath t ps e) :
    Values.getSegs t ps = some e := by
  induction h with
  | nil t => rfl
  | leaf hfresh =>
    rw [getSegs_cons_eq]
    simp only [Values.entries]
    rw [(lookupA_eq_some_iff _ _ _).mpr ⟨_, _, rfl, hfresh⟩]
  | node hfresh hsub ih =>
    rw [getSegs_cons_eq]
    simp only [Values.entries]
    rw [(lookupA_eq_some_iff _ _ _).mpr ⟨_, _, rfl, hfresh⟩]
    exact ih

theorem hasPath_of_getSegs {α : Type} :
    ∀ (ps : List Str) (t : Values α) (e : α ⊕ Values α),
      Values.getSegs t ps = some e → HasPath t ps e
  | [], t, e, h => by
    simp only [Values.getSegs, Option.some_inj] at h
    subst h
    exact HasPath.nil t
  | n :: rest, t, e, h => by
    rw [getSegs_cons_eq] at h
    cases hl : lookupA t.entries n with
    | none => rw [hl] at h; exact absurd h (by simp)
    | some entry =>
      rw [hl] at h
      cases entry with
      | inl v =>
        cases rest with
        | nil =>
          simp only [Option.some_inj] at h
          subst h
          obtain ⟨es₁, es₂, heq, hfresh⟩ := (lookupA_eq_some_iff _ _ _).mp hl
          cases t with
          | mk es =>
            simp only [Values.entries] at heq
            subst heq
            exact HasPath.leaf hfresh
        | cons q qs => exact absurd h (by simp)
      | inr sub =>
        have ih := hasPath_of_getSegs rest sub e h
        obtain ⟨es₁, es₂, heq, hfresh⟩ := (lookupA_eq_some_iff _ _ _).mp hl
        cases t with
        | mk es =>
          simp only [Values.entries] at heq
          subst heq
          exact HasPath.node hfresh ih

/-! ## String lemmas: splitting, joining and lower-casing -/

theorem lowerChar_underscore (c : Char) (h : lowerChar c = '_') : c = '_' := by
  unfold lowerChar at h
  split at h <;> first | exact h | exact absurd h (by decide)

theorem splitOn_ne_nil (c : Char) (s : Str) : splitOn c s ≠ [] := by
  cases s with
  | nil => simp [splitOn]
  | cons x xs =>
    simp only [splitOn]
    split
    · simp
    · split <;> simp

theorem joinOn_splitOn_map (c d : Char) (s : Str) :
    joinOn d (splitOn c s) = s.map fun x => if x = c then d else x := by
  induction s with
  | nil => rfl
  | cons x xs ih =>
    by_cases hx : x = c
    · subst hx
      simp only [splitOn, if_pos rfl, List.map_cons]
      cases hs : splitOn x xs with
      | nil => exact absurd hs (splitOn_ne_nil x xs)
      | cons s0 rest =>
        rw [hs] at ih
        show d :: joinOn d (s0 :: rest) = d :: List.map _ xs
        rw [ih]
    · simp only [splitOn, if_neg hx, List.map_cons]
      cases hs : splitOn c xs with
      | nil => exact absurd hs (splitOn_ne_nil c xs)
      | cons s0 rest =>
        rw [hs] at ih
        cases rest with
        | nil =>
          show x :: s0 = x :: _
          rw [show joinOn d [s0] = s0 from rfl] at ih
          rw [ih]
        | cons s1 rest' =>
          show (x :: s0) ++ d :: joinOn d (s1 :: rest') = x :: _
          rw [List.cons_append,
            show joinOn d (s0 :: s1 :: rest') = s0 ++ d :: joinOn d (s1 :: rest')
              from rfl] at *
          rw [ih]

theorem map_collapse (c : Char) (s : Str) :
    (s.map fun x => if x = c then c else x) = s := by
  induction s with
  | nil => rfl
  | cons x xs ih => by_cases hx : x = c <;> simp [hx, ih]

theorem joinOn_splitOn_self (c : Char) (s : Str) : joinOn c (splitOn c s) = s := by
  rw [joinOn_splitOn_map, map_collapse]

/-- Source strip versus spec strip: when the application name has no
underscore, dropping the first underscore-separated component of a key
matched by the case-insensitive `name + underscore` prefix test equals
dropping the whole prefix (name length plus one). -/
theorem strip_first_underscore :
    ∀ (name k : Str), '_' ∉ name →
      List.isPrefixOf (lowerStr name ++ ['_']) (lowerStr k) = true →
      joinOn '_' ((splitOn '_' k).drop 1) = k.drop (name.length + 1)
  | [], k, _, hp => by
    cases k with
    | nil => simp [lowerStr, List.isPrefixOf] at hp
    | cons b k' =>
      simp only [lowerStr, List.map_nil, List.nil_append, List.map_cons,
        List.isPrefixOf, List.isPrefixOf_nil_left, Bool.and_true,
        beq_iff_eq] at hp
      have hb : b = '_' := lowerChar_underscore b hp.symm
      subst hb
      simp only [splitOn, if_pos rfl, List.drop_succ_cons, List.drop_zero,
        List.length_nil, Nat.zero_add]
      exact joinOn_splitOn_self '_' k'
  | a :: name', k, hn, hp => by
    have ha : a ≠ '_' := fun h => hn (h ▸ List.mem_cons_self a name')
    have hn' : '_' ∉ name' := fun h => hn (List.mem_cons_of_mem a h)
    cases k with
    | nil => simp [lowerStr, List.isPrefixOf] at hp
    | cons b k' =>
      simp only [lowerStr, List.map_cons, List.cons_append, List.isPrefixOf,
        Bool.and_eq_true, beq_iff_eq] at hp
      obtain ⟨hab, hrest⟩ := hp
      have hb : b ≠ '_' := by
        intro hb
        subst hb
        exact ha (lowerChar_underscore a (by simpa using hab))
      have ih := strip_first_underscore name' k' hn' hrest
      simp only [splitOn, if_neg hb]
      cases hs : splitOn '_' k' with
      | nil => exact absurd hs (splitOn_ne_nil '_' k')
      | cons s0 rest =>
        rw [hs] at ih
        simp only [List.drop_succ_cons, List.drop_zero] at ih ⊢
        rw [ih]
        rfl

/-- The code's per-key translation in `update_from_env` equals the
spec's description: lower-case, then replace underscores with the
delimiter. -/
theorem envKeyPath_eq_spec (k : Str) : envKeyPath k = specKeyPath k :=
  joinOn_splitOn_map '_' Values.delim (lowerStr k)

/-- For application names without an underscore, the env filter of
`App.opts` produces exactly the retain-and-strip mapping described by
the spec. -/
theorem appFilterEnv_eq_spec (name : Str) (env : List (Str × Str))
    (hn : '_' ∉ name) : appFilterEnv name env = specFilterEnv name env := by
  unfold appFilterEnv specFilterEnv
  induction env with
  | nil => rfl
  | cons kv rest ih =>
    simp only [List.filter_cons]
    by_cases hkv : List.isPrefixOf (lowerStr name ++ ['_']) (lowerStr kv.1) = true
    · rw [if_pos hkv, List.map_cons, List.map_cons,
        strip_first_underscore name kv.1 hn hkv, ih]
    · rw [if_neg hkv]
      exact ih

/-! ## Reduction lemmas for the config loader -/

theorem lowerStr_append (a b : Str) : lowerStr (a ++ b) = lowerStr a ++ lowerStr b :=
  List.map_append lowerChar a b

theorem update_from_config_single (t : Values Str) (s : Str)
    (ls : List (Str × Str)) :
    Values.update_from_config t [(s, ls)] = applyOptions t s (parseSection ls) := by
  cases h : applyOptions t s (parseSection ls) <;>
    simp [Values.update_from_config, h]

theorem applyOptions_single (t : Values Str) (s k v : Str) :
    applyOptions t s [(k, v)] = Values.set t (s ++ Values.delim :: k) v := by
  cases h : Values.set t (s ++ Values.delim :: k) v <;> simp [applyOptions, h]

theorem update_single (t : Values Str) (s k v : Str) :
    Values.update_from_config t [(s, [(k, v)])]
      = Values.set t (s ++ Values.delim :: lowerStr k) v := by
  rw [update_from_config_single,
    show parseSection [(k, v)] = [(lowerStr k, v)] from rfl, applyOptions_single]

/-! ## Claim theorems -/

/-- C1: the claim says a command-line flag overrides environment and
config at the same dotted path.  The code does not do this: `App.opts`
discards the pair returned by `update_from_cli`, so for EVERY black-box
flag parser, every option schema and every argv — including
`--default-foo baz` — the resolved tree still holds the environment
value at `default.foo`.  This theorem evaluates the code at the claim's
own failing scenario (config `default.foo = bar`, environment
`OURAPP_DEFAULT_FOO = notbar`, any flags). -/
theorem C1_flags_discarded {σ π : Type} (parseArgs : σ → Option (List Str) → π)
    (options : σ) (argv : Option (List Str)) :
    Option.bind
      (App_opts parseArgs (str "ourapp")
        (some [(str "default", [(str "foo", str "bar")])])
        (some [(str "OURAPP_DEFAULT_FOO", str "notbar")]) options argv)
      (fun t => t.get (str "default.foo"))
      = some (Sum.inl (str "notbar")) := rfl

/-- C2: the claim says the resolution entry point returns the pair
(settings tree, leftover positional arguments).  The code returns only
the tree: the result of `App.opts` is independent of `argv` (and of the
flag parser entirely), so the positional arguments cannot be part of
it. -/
theorem C2_positional_args_not_returned {σ π : Type}
    (parseArgs : σ → Option (List Str) → π) (name : Str)
    (config_file : Option ConfigFile) (env : Option (List (Str × Str)))
    (options : σ) (argv1 argv2 : Option (List Str)) :
    App_opts parseArgs name config_file env options argv1
      = App_opts parseArgs name config_file env options argv2 := rfl

/-- C3 (amended): for application names containing no underscore, env
ingestion retains exactly the keys whose case-insensitive prefix equals
the name plus underscore, strips that whole prefix, lower-cases the
remainder and replaces underscores with the delimiter (the paths then
set by `update_from_env`).  For names containing an underscore the
code's strip (`join(split[1:])`) removes only the first component — see
the counterexample. -/
theorem C3_env_filter_translate (name : Str) (env : List (Str × Str))
    (hn : '_' ∉ name) :
    appFilterEnv name env = specFilterEnv name env
      ∧ ∀ k : Str, envKeyPath k = specKeyPath k :=
  ⟨appFilterEnv_eq_spec name env hn, envKeyPath_eq_spec⟩

theorem C3_witness :
    ('_' ∉ str "ourapp")
      ∧ (appFilterEnv (str "ourapp") [(str "OURAPP_FROBNITZ_SPAM", str "x")]
          = specFilterEnv (str "ourapp") [(str "OURAPP_FROBNITZ_SPAM", str "x")]
        ∧ ∀ k : Str, envKeyPath k = specKeyPath k) :=
  ⟨by decide,
    C3_env_filter_translate (str "ourapp")
      [(str "OURAPP_FROBNITZ_SPAM", str "x")] (by decide)⟩

/-- C3 counterexample: with application name `our_app` (which contains
an underscore) and raw key `OUR_APP_FOO`, the code strips only `OUR_`
and keeps `APP_FOO`, while the claim's whole-prefix strip would keep
`FOO`. -/
theorem C3_counterexample :
    appFilterEnv (str "our_app") [(str "OUR_APP_FOO", str "v")]
      ≠ specFilterEnv (str "our_app") [(str "OUR_APP_FOO", str "v")] := by
  decide

/-- C4: with a config file assigning `default.foo` and environment
variable `OURAPP_DEFAULT_FOO` carrying a different value (and any
flags — which the code ignores anyway), resolution yields the
environment value at `default.foo`: the environment loader runs after
the config loader and `set` overwrites. -/
theorem C4_env_overrides_config {σ π : Type}
    (parseArgs : σ → Option (List Str) → π) (options : σ)
    (argv : Option (List Str)) (v1 v2 : Str) (h : v1 ≠ v2) :
    Option.bind
      (App_opts parseArgs (str "ourapp")
        (some [(str "default", [(str "foo", v1)])])
        (some [(str "OURAPP_DEFAULT_FOO", v2)]) options argv)
      (fun t => t.get (str "default.foo"))
      = some (Sum.inl v2) := rfl

theorem C4_witness :
    (str "bar" ≠ str "notbar")
      ∧ Option.bind
          (App_opts (fun (_ : Unit) (_ : Option (List Str)) => ()) (str "ourapp")
            (some [(str "default", [(str "foo", str "bar")])])
            (some [(str "OURAPP_DEFAULT_FOO", str "notbar")]) ()
            (some [str "--default-foo", str "baz"]))
          (fun t => t.get (str "default.foo"))
          = some (Sum.inl (str "notbar")) :=
  ⟨by decide, C4_env_overrides_config _ _ _ _ _ (by decide)⟩

/-- C5: a config section named `p.q` with key `r` produces the same
tree as a section named `p` with key `q.r` (section and key are joined
with the delimiter before splitting), and reading the concatenated path
returns the stored value.  The hypothesis `lowerStr q = q` reflects
`ConfigParser`'s lower-casing of option names — it holds for the claim's
own names `one.two` / `three`. -/
theorem C5_section_key_concat (p q r v : Str) (t : Values Str)
    (hq : lowerStr q = q) :
    Values.update_from_config t [(p ++ '.' :: q, [(r, v)])]
      = Values.update_from_config t [(p, [(q ++ '.' :: r, v)])]
    ∧ ∀ t2, Values.update_from_config t [(p ++ '.' :: q, [(r, v)])] = some t2 →
        Values.get t2 (p ++ '.' :: q ++ '.' :: lowerStr r)
          = some (Sum.inl v) := by
  have hdelim : Values.delim = '.' := rfl
  have hpath : (p ++ '.' :: q) ++ '.' :: lowerStr r
      = p ++ '.' :: lowerStr (q ++ '.' :: r) := by
    rw [lowerStr_append, hq,
      show lowerStr ('.' :: r) = '.' :: lowerStr r from rfl, List.append_assoc]
    rfl
  have hassoc : (p ++ '.' :: q) ++ '.' :: lowerStr r
      = p ++ '.' :: q ++ '.' :: lowerStr r := by
    rw [List.append_assoc]
  constructor
  · rw [update_single, update_single, hdelim, hpath]
  · intro t2 h2
    rw [update_single, hdelim] at h2
    have hg := set_get_roundtrip _ _ _ _ h2
    rw [hassoc] at hg
    exact hg

theorem C5_witness :
    (lowerStr (str "two") = str "two")
      ∧ (Values.update_from_config (Values.mk [])
            [(str "one" ++ '.' :: str "two", [(str "three", str "four")])]
          = Values.update_from_config (Values.mk [])
            [(str "one", [(str "two" ++ '.' :: str "three", str "four")])]
        ∧ ∀ t2, Values.update_from_config (Values.mk [])
              [(str "one" ++ '.' :: str "two", [(str "three", str "four")])]
              = some t2 →
            Values.get t2
                (str "one" ++ '.' :: str "two" ++ '.' :: lowerStr (str "three"))
              = some (Sum.inl (str "four"))) :=
  ⟨rfl, C5_section_key_concat (str "one") (str "two") (str "three")
    (str "four") (Values.mk []) rfl⟩

/-- C6: for every tree, dotted path and value, a successful
`set(P, V)` followed by `get(P)` returns V. -/
theorem C6_set_get_roundtrip {α : Type} (t t' : Values α) (P : Str) (v : α)
    (h : Values.set t P v = some t') :
    Values.get t' P = some (Sum.inl v) :=
  set_get_roundtrip t t' P v h

theorem C6_witness :
    (Values.set (α := Str) (Values.mk []) (str "one.two") (str "four")
        = some (Values.mk [(str "one",
            Sum.inr (Values.mk [(str "two", Sum.inl (str "four"))]))]))
      ∧ Values.get (Values.mk [(str "one",
            Sum.inr (Values.mk [(str "two", Sum.inl (str "four"))]))])
          (str "one.two") = some (Sum.inl (str "four")) :=
  ⟨rfl, C6_set_get_roundtrip (Values.mk [])
    (Values.mk [(str "one",
      Sum.inr (Values.mk [(str "two", Sum.inl (str "four"))]))])
    (str "one.two") (str "four") rfl⟩

/-- C7: last write wins — after `set(P, V1)` then `set(P, V2)`,
`get(P)` returns V2; and a config-file section with a duplicated key
stores the value of the last occurrence (via `ConfigParser`'s section
dictionary, last assignment winning). -/
theorem C7_last_write_wins :
    (∀ {α : Type} (t t1 t2 : Values α) (P : Str) (v1 v2 : α),
        Values.set t P v1 = some t1 → Values.set t1 P v2 = some t2 →
        Values.get t2 P = some (Sum.inl v2))
    ∧ (∀ (t t' : Values Str) (s k v1 v2 : Str),
        Values.update_from_config t [(s, [(k, v1), (k, v2)])] = some t' →
        Values.get t' (s ++ Values.delim :: lowerStr k)
          = some (Sum.inl v2)) := by
  constructor
  · intro α t t1 t2 P v1 v2 _ h2
    exact set_get_roundtrip t1 t2 P v2 h2
  · intro t t' s k v1 v2 h
    rw [update_from_config_single,
      show parseSection [(k, v1), (k, v2)] = [(lowerStr k, v2)] from by
        simp [parseSection, updateAList],
      applyOptions_single] at h
    exact set_get_roundtrip _ _ _ _ h

theorem C7_witness :
    (Values.set (α := Str) (Values.mk []) (str "a.b") (str "1")
        = some (Values.mk [(str "a",
            Sum.inr (Values.mk [(str "b", Sum.inl (str "1"))]))]))
      ∧ (Values.set (Values.mk [(str "a",
            Sum.inr (Values.mk [(str "b", Sum.inl (str "1"))]))])
          (str "a.b") (str "2")
        = some (Values.mk [(str "a",
            Sum.inr (Values.mk [(str "b", Sum.inl (str "2"))]))]))
      ∧ (Values.get (Values.mk [(str "a",
            Sum.inr (Values.mk [(str "b", Sum.inl (str "2"))]))])
          (str "a.b") = some (Sum.inl (str "2")))
      ∧ (Values.update_from_config (Values.mk [])
          [(str "section", [(str "foo", str "1"), (str "foo", str "2")])]
        = some (Values.mk [(str "section",
            Sum.inr (Values.mk [(str "foo", Sum.inl (str "2"))]))]))
      ∧ Values.get (Values.mk [(str "section",
            Sum.inr (Values.mk [(str "foo", Sum.inl (str "2"))]))])
          (str "section" ++ Values.delim :: lowerStr (str "foo"))
          = some (Sum.inl (str "2")) :=
  ⟨rfl, rfl,
    C7_last_write_wins.1 (Values.mk [])
      (Values.mk [(str "a",
        Sum.inr (Values.mk [(str "b", Sum.inl (str "1"))]))])
      (Values.mk [(str "a",
        Sum.inr (Values.mk [(str "b", Sum.inl (str "2"))]))])
      (str "a.b") (str "1") (str "2") rfl rfl,
    rfl,
    C7_last_write_wins.2 (Values.mk [])
      (Values.mk [(str "section",
        Sum.inr (Values.mk [(str "foo", Sum.inl (str "2"))]))])
      (str "section") (str "foo") (str "1") (str "2") rfl⟩

/-- C8: constructing an App around an entry-point callable that does
not declare exactly three positional parameters, or declares varargs or
varkw, fails with the arity MainError during `App.__init__` (which runs
`find_main` first), so no App value — and hence no resolution pass —
ever exists. -/
theorem C8_main_arity_check (f : PyFunc) (name : Str)
    (config_file : Option ConfigFile) (argv : Option (List Str))
    (env : Option (List (Str × Str))) (exit_after_main : Bool)
    (h : f.args ≠ 3 ∨ f.varargs = true ∨ f.varkw = true) :
    App_init name (some f) config_file argv env exit_after_main
      = Except.error MainErr.badArity := by
  have hfm : find_main (some f) = Except.error MainErr.badArity := by
    show (if f.args ≠ 3 ∨ f.varargs = true ∨ f.varkw = true
          then Except.error MainErr.badArity else Except.ok f)
        = Except.error MainErr.badArity
    rw [if_pos h]
  unfold App_init
  rw [hfm]
  rfl

theorem C8_witness :
    ((2 : Nat) ≠ 3 ∨ (false : Bool) = true ∨ (false : Bool) = true)
      ∧ App_init (str "ourapp") (some ⟨2, false, false⟩) none none none true
          = Except.error MainErr.badArity :=
  ⟨by decide, C8_main_arity_check ⟨2, false, false⟩ _ _ _ _ _ (by decide)⟩

/-- C9: reading a dotted path yields a value exactly when the
declarative presence relation `HasPath` holds of its segments, and
fails with a lookup error (`none`) exactly when no entry is present at
that path; `get` takes the tree and returns only the read result, so a
failed read materializes nothing. -/
theorem C9_missing_path_lookup_error {α : Type} (t : Values α) (P : Str) :
    (∀ e, Values.get t P = some e ↔ HasPath t (splitOn Values.delim P) e)
    ∧ (Values.get t P = none
        ↔ ¬ ∃ e, HasPath t (splitOn Values.delim P) e) := by
  constructor
  · intro e
    exact ⟨hasPath_of_getSegs _ t e, getSegs_of_hasPath⟩
  · constructor
    · rintro hnone ⟨e, he⟩
      rw [show Values.get t P = Values.getSegs t (splitOn Values.delim P)
            from rfl, getSegs_of_hasPath he] at hnone
      exact Option.noConfusion hnone
    · intro hne
      cases hg : Values.get t P with
      | none => rfl
      | some e => exact absurd ⟨e, hasPath_of_getSegs _ t e hg⟩ hne

theorem C9_witness :
    (∀ e, Values.get (Values.mk [] : Values Str) (str "a") = some e
        ↔ HasPath (Values.mk [] : Values Str) (splitOn Values.delim (str "a")) e)
    ∧ (Values.get (Values.mk [] : Values Str) (str "a") = none
        ↔ ¬ ∃ e, HasPath (Values.mk [] : Values Str)
            (splitOn Values.delim (str "a")) e) :=
  C9_missing_path_lookup_error (Values.mk [] : Values Str) (str "a")

/-- C10: a successful write at path P leaves every path Q that is
neither a segment-wise extension nor a segment-wise prefix of P reading
exactly as before — a write touches only its own path chain. -/
theorem C10_write_frame {α : Type} (t t' : Values α) (P Q : Str) (v : α)
    (h : Values.set t P v = some t')
    (h1 : List.isPrefixOf (splitOn Values.delim P) (splitOn Values.delim Q)
        = false)
    (h2 : List.isPrefixOf (splitOn Values.delim Q) (splitOn Values.delim P)
        = false) :
    Values.get t' Q = Values.get t Q :=
  frame_aux (splitOn Values.delim P) (splitOn Values.delim Q) t t' v h h1 h2

theorem C10_witness :
    (Values.set (α := Str) (Values.mk [(str "c", Sum.inl (str "z"))])
        (str "a.b") (str "1")
      = some (Values.mk [(str "c", Sum.inl (str "z")),
          (str "a", Sum.inr (Values.mk [(str "b", Sum.inl (str "1"))]))]))
    ∧ (List.isPrefixOf (splitOn Values.delim (str "a.b"))
        (splitOn Values.delim (str "c")) = false)
    ∧ (List.isPrefixOf (splitOn Values.delim (str "c"))
        (splitOn Values.delim (str "a.b")) = false)
    ∧ Values.get (Values.mk [(str "c", Sum.inl (str "z")),
          (str "a", Sum.inr (Values.mk [(str "b", Sum.inl (str "1"))]))])
        (str "c")
      = Values.get (Values.mk [(str "c", Sum.inl (str "z"))]) (str "c") :=
  ⟨rfl, by decide, by decide,
    C10_write_frame (Values.mk [(str "c", Sum.inl (str "z"))])
      (Values.mk [(str "c", Sum.inl (str "z")),
        (str "a", Sum.inr (Values.mk [(str "b", Sum.inl (str "1"))]))])
      (str "a.b") (str "c") (str "1") rfl (by decide) (by decide)⟩

end CliSpec
